import Mathlib

/-!
Shallow embedding of the shareable-storage-haven file-sharing surface.

The repository is a small web front end over a hosted backend: a `files`
table, object storage, and auth. Three source variants exist:
the main screen `src/pages/Index.tsx` (parameterised `fetchFiles`,
`handleUpload`, read-modify-write `handleShare`), a legacy screen
(`src/unnamed/part_000`, whose `fetchFiles` issues an unscoped query and
whose share handler is the known-broken SQL-template variant), and a
server action `getFiles` (`src/unnamed/part_001`).

Pure derivations (file-extension splitting, storage-key construction,
query filtering, sorting, limiting, the shared-with append) are embedded
as Lean functions; each handler becomes a function from its inputs and
the outcomes of the remote calls (modelled as `Option`/`Except` error
values) to an explicit outcome record describing the state written back.
-/

/-- Row of the `files` table, from the `FileRecord` interface in
`src/pages/Index.tsx` (the `user_id` column is present in the table and
used by the filter predicates, so it is carried here as well). -/
structure FileRecord where
  id : String
  filename : String
  public_url : String
  type : String
  extension : String
  shared_with : List String
  fullname : String
  created_at : String
  user_id : String
deriving DecidableEq

/-- The authenticated user as the handlers read it: `user.id` is a string,
`user.email` may be absent. -/
structure User where
  id : String
  email : Option String
deriving DecidableEq

/-- JavaScript string truthiness: a string is truthy iff it is nonempty. -/
def truthyStr (s : String) : Bool := !(s == "")

/-- Truthiness of a nullable string (`null`/`undefined` and the empty
string are falsy). -/
def truthyOptStr : Option String → Bool
  | none => false
  | some s => truthyStr s

/-- JavaScript `x || d` on a nullable string: the default is taken when
`x` is `null`/`undefined` or empty. -/
def jsOrElse (x : Option String) (d : String) : String :=
  match x with
  | none => d
  | some s => if truthyStr s then s else d

/-- JavaScript `s || ""` on a string (from `extension: fileExt || ""`). -/
def orEmpty (s : String) : String := if truthyStr s then s else ""

/-- JavaScript `String.prototype.split` with the one-character separator
`"."`, on character lists: the maximal dot-free segments of the input, in
order. `splitDot [] = [[]]`, matching the JavaScript result `[""]` for
the empty string. Embeds the `selectedFile.name.split(".")` step of
`handleUpload`. -/
def splitDot : List Char → List (List Char)
  | [] => [[]]
  | c :: cs =>
    match splitDot cs with
    | [] => [[]]
    | s :: rest => if c = '.' then [] :: s :: rest else (c :: s) :: rest

/-- `selectedFile.name.split(".").pop()` from `handleUpload`: the last
segment of the dot-split of the file name (`split` never yields an empty
array, so `pop` is the last element). -/
def fileExt (name : String) : String := String.mk ((splitDot name.data).getLastD [])

/-- The storage key built by `handleUpload`:
the freshly generated `crypto.randomUUID()` (passed here as the `uuid`
argument), a dot, and the derived extension. -/
def fileName (uuid name : String) : String := uuid ++ "." ++ fileExt name

/-- Lexicographic comparison of character lists; the total order this
model fixes for text columns of the backing store. -/
def leChars : List Char → List Char → Bool
  | [], _ => true
  | _ :: _, [] => false
  | a :: as, b :: bs => if a = b then leChars as bs else decide (a < b)

/-- The string order used when the backing store sorts a text column. -/
def strLe (a b : String) : Bool := leChars a.data b.data

/-- Descending insertion of one row by a string key. -/
def insertDesc (key : FileRecord → String) (x : FileRecord) : List FileRecord → List FileRecord
  | [] => [x]
  | y :: ys => if strLe (key y) (key x) then x :: y :: ys else y :: insertDesc key x ys

/-- Descending insertion sort by a string key; the model of
`query.order(col, ascending: false)` applied by every query variant. -/
def sortDesc (key : FileRecord → String) : List FileRecord → List FileRecord
  | [] => []
  | x :: xs => insertDesc key x (sortDesc key xs)

/-- The column a row is ordered by, for the column names the queries pass
to `order` (those are always drawn from the allow-list below; the final
branch is the `created_at` column). -/
def orderValue (col : String) (f : FileRecord) : String :=
  if col == "filename" then f.filename
  else if col == "type" then f.type
  else f.created_at

/-- The ownership/sharing filter
`.or(user_id.eq.USERID,shared_with.cs.SET-CONTAINING-EMAIL)` used by the
scoped query variants: the row is owned by the user, or the user's email
is contained in its `shared_with` array. -/
def ownershipPred (userId email : String) (f : FileRecord) : Bool :=
  f.user_id == userId || f.shared_with.contains email

/-- The `FetchFilesParams` interface of `src/pages/Index.tsx`; `sortBy`
carries its destructuring default `"created_at"` when absent. -/
structure FetchFilesParams where
  fileType : Option String
  searchQuery : Option String
  sortBy : Option String
  limit : Option Int
deriving DecidableEq

/-- `if (fileType) query = query.eq('type', fileType)`. -/
def applyTypeFilter (fileType : Option String) (rows : List FileRecord) : List FileRecord :=
  match fileType with
  | none => rows
  | some t => if truthyStr t then rows.filter (fun f => f.type == t) else rows

/-- Does the first character list start the second one? -/
def startsWithL : List Char → List Char → Bool
  | [], _ => true
  | _ :: _, [] => false
  | a :: as, b :: bs => a == b && startsWithL as bs

/-- Contiguous-substring test on character lists (the containment test of
an ILIKE pattern with wildcards on both sides). -/
def substrL (needle : List Char) : List Char → Bool
  | [] => needle.isEmpty
  | h :: t => startsWithL needle (h :: t) || substrL needle t

/-- `if (searchQuery) query = query.ilike('filename', PATTERN)` with the
pattern enclosing the search text in wildcards: case-insensitive
substring match against `filename`. -/
def applySearchFilter (searchQuery : Option String) (rows : List FileRecord) : List FileRecord :=
  match searchQuery with
  | none => rows
  | some q =>
    if truthyStr q then
      rows.filter (fun f => substrL q.toLower.data f.filename.toLower.data)
    else rows

/-- `const allowedSortColumns = ['created_at', 'filename', 'type']`. -/
def allowedSortColumns : List String := ["created_at", "filename", "type"]

/-- `const finalSortBy = allowedSortColumns.includes(sortBy) ? sortBy :
'created_at'`. -/
def finalSortBy (sortBy : String) : String :=
  if allowedSortColumns.contains sortBy then sortBy else "created_at"

/-- `if (limit && limit > 0 && limit <= 100) query = query.limit(limit)`:
the limit is applied only when present and in the range 1..100. -/
def applyLimit (limit : Option Int) (rows : List FileRecord) : List FileRecord :=
  match limit with
  | none => rows
  | some n => if 0 < n ∧ n ≤ 100 then rows.take n.toNat else rows

/-- The full query built by `fetchFiles` in `src/pages/Index.tsx`,
evaluated against the table contents: ownership/sharing filter, optional
type filter, optional search filter, descending order by the
allow-listed sort column, optional range-checked limit. -/
def runQuery (userId email : String) (p : FetchFilesParams) (table : List FileRecord) :
    List FileRecord :=
  applyLimit p.limit
    (sortDesc (orderValue (finalSortBy (p.sortBy.getD "created_at")))
      (applySearchFilter p.searchQuery
        (applyTypeFilter p.fileType
          (table.filter (fun f => ownershipPred userId email f)))))

/-- The guard `!user?.id || !user?.email` of `fetchFiles`, as a predicate:
the user is resolved when present with a truthy id and a truthy email. -/
def resolvedUser : Option User → Bool
  | none => false
  | some u => truthyStr u.id && truthyOptStr u.email

/-- Outcome of one `fetchFiles` invocation: whether a query was issued,
the `files` state afterwards, and whether an error notification was
shown. -/
structure FetchOutcome where
  executed : Bool
  files : List FileRecord
  errorToast : Bool
deriving DecidableEq

/-- `fetchFiles` of `src/pages/Index.tsx`: no-op unless the user's id and
email are resolved; on a query error, show a destructive toast and leave
`files` unchanged; on success, store the query result. `table` is the
table contents and `queryError` the error outcome of the remote call. -/
def fetchFiles (user : Option User) (p : FetchFilesParams)
    (table : List FileRecord) (queryError : Option String)
    (files0 : List FileRecord) : FetchOutcome :=
  match user with
  | none => { executed := false, files := files0, errorToast := false }
  | some u =>
    if !truthyStr u.id || !truthyOptStr u.email then
      { executed := false, files := files0, errorToast := false }
    else
      match queryError with
      | some _ => { executed := true, files := files0, errorToast := true }
      | none =>
        { executed := true
          files := runQuery u.id (u.email.getD "") p table
          errorToast := false }

/-- `fetchFiles` of the legacy screen `src/unnamed/part_000`: it reads no
user state (the `user` argument records the component state it ignores)
and unconditionally issues `select * order by created_at desc` with no
ownership filter; on error it shows a toast and leaves `files`
unchanged. -/
def fetchFilesLegacy (user : Option User) (table : List FileRecord)
    (queryError : Option String) (files0 : List FileRecord) : FetchOutcome :=
  match user, queryError with
  | _, some _ => { executed := true, files := files0, errorToast := true }
  | _, none =>
    { executed := true
      files := sortDesc (orderValue "created_at") table
      errorToast := false }

/-- Result of the server action `getFiles` of `src/unnamed/part_001`:
an exception rethrown by `handleError`, the error object it returns on a
query error, or the fetched data. -/
inductive GetFilesResult where
  | thrown (msg : String)
  | failure (msg : String)
  | success (data : List FileRecord)
deriving DecidableEq

/-- The server action `getFiles` of `src/unnamed/part_001`. The first
component records whether the query was issued. A falsy `userId` or
`email` throws before any query; a query error returns the failure
object with the message defaulted; otherwise the data is the
ownership-filtered table ordered descending by `created_at`. -/
def getFiles (userId email : Option String) (table : List FileRecord)
    (queryError : Option String) : Bool × GetFilesResult :=
  if !truthyOptStr userId then (false, .thrown "User ID is required")
  else if !truthyOptStr email then (false, .thrown "Email is required")
  else
    match queryError with
    | some msg => (true, .failure (jsOrElse (some msg) "Failed to fetch files"))
    | none =>
      (true, .success (sortDesc (orderValue "created_at")
        (table.filter (fun f => ownershipPred (userId.getD "") (email.getD "") f))))

/-- A locally selected browser file as `handleUpload` reads it:
its `name` and its MIME `type`. -/
structure BrowserFile where
  name : String
  type : String
deriving DecidableEq

/-- The metadata row `handleUpload` inserts into the `files` table. -/
structure UploadRow where
  filename : String
  public_url : String
  user_id : String
  type : String
  extension : String
  fullname : String
deriving DecidableEq

/-- The toasts the handlers can show. -/
inductive ToastMsg where
  | uploadSuccess
  | uploadError (msg : String)
  | shareSuccess (email : String)
  | shareError (msg : String)
deriving DecidableEq

/-- Outcome of one `handleUpload` invocation: the storage key used (if the
storage write was attempted), whether the storage write and the metadata
insert were attempted, the row persisted by a successful insert, whether
any compensating storage delete was performed, the toast shown, and the
`isUploading`, `selectedFile` and refresh effects. -/
structure UploadOutcome where
  storageKeyUsed : Option String
  uploadAttempted : Bool
  insertAttempted : Bool
  insertedRow : Option UploadRow
  compensatingDelete : Bool
  toast : Option ToastMsg
  isUploading : Bool
  selectedFileAfter : Option BrowserFile
  refreshed : Bool
deriving DecidableEq

/-- `handleUpload` of `src/pages/Index.tsx`. Guard: no selected file or no
user means nothing happens (the busy flag is never set). Otherwise the
busy flag is set, the storage write is attempted under the derived key;
a storage error throws before the insert; otherwise the public URL is
resolved and the insert attempted; an insert error throws after the
object is stored (no compensating delete exists in the source); on
success the row is persisted, the selected file cleared and the list
refreshed. The `finally` block clears the busy flag on every path
through the `try`. -/
def handleUpload (selectedFile : Option BrowserFile) (user : Option User)
    (uuid : String) (publicUrlFor : String → String)
    (uploadError dbError : Option String)
    (isUploading0 : Bool) : UploadOutcome :=
  match selectedFile, user with
  | none, _ =>
    { storageKeyUsed := none, uploadAttempted := false, insertAttempted := false
      insertedRow := none, compensatingDelete := false, toast := none
      isUploading := isUploading0, selectedFileAfter := selectedFile, refreshed := false }
  | some f, none =>
    { storageKeyUsed := none, uploadAttempted := false, insertAttempted := false
      insertedRow := none, compensatingDelete := false, toast := none
      isUploading := isUploading0, selectedFileAfter := some f, refreshed := false }
  | some f, some u =>
    match uploadError with
    | some msg =>
      { storageKeyUsed := some (fileName uuid f.name), uploadAttempted := true
        insertAttempted := false, insertedRow := none, compensatingDelete := false
        toast := some (.uploadError msg), isUploading := false
        selectedFileAfter := some f, refreshed := false }
    | none =>
      match dbError with
      | some msg =>
        { storageKeyUsed := some (fileName uuid f.name), uploadAttempted := true
          insertAttempted := true, insertedRow := none, compensatingDelete := false
          toast := some (.uploadError msg), isUploading := false
          selectedFileAfter := some f, refreshed := false }
      | none =>
        { storageKeyUsed := some (fileName uuid f.name), uploadAttempted := true
          insertAttempted := true
          insertedRow := some
            { filename := f.name
              public_url := publicUrlFor (fileName uuid f.name)
              user_id := u.id
              type := f.type
              extension := orEmpty (fileExt f.name)
              fullname := jsOrElse u.email "Unknown" }
          compensatingDelete := false
          toast := some .uploadSuccess, isUploading := false
          selectedFileAfter := none, refreshed := true }

/-- `[...(currentFile?.shared_with || []), shareEmail]` from
`handleShare`: the previous array (a `null` column treated as empty)
with the new email appended at the end. -/
def updatedSharedWith (current : Option (List String)) (shareEmail : String) : List String :=
  current.getD [] ++ [shareEmail]

/-- Outcome of one `handleShare` invocation: the `shared_with` array
persisted by a successful update (if any), whether the update was
attempted, the toast shown, the input field and pending target
afterwards, and whether the list was refreshed. -/
structure ShareOutcome where
  updatedArray : Option (List String)
  updateAttempted : Bool
  toast : Option ToastMsg
  shareEmailAfter : String
  selectedFileIdAfter : Option String
  refreshed : Bool
deriving DecidableEq

/-- `handleShare` of `src/pages/Index.tsx`. Guard: a falsy pending file id
or share email means nothing happens. Otherwise the current
`shared_with` array is fetched (`fetchedSharedWith`, whose payload may
be a `null` column); a fetch error throws; otherwise the appended array
is written back; an update error throws; on success the success toast is
shown, the input field and pending target are cleared and the list is
refreshed. Every thrown error shows the destructive share toast and
leaves the input field and pending target unchanged. -/
def handleShare (selectedFileId : Option String) (shareEmail : String)
    (fetchedSharedWith : Except String (Option (List String)))
    (updateError : Option String) : ShareOutcome :=
  if !truthyOptStr selectedFileId || !truthyStr shareEmail then
    { updatedArray := none, updateAttempted := false, toast := none
      shareEmailAfter := shareEmail, selectedFileIdAfter := selectedFileId
      refreshed := false }
  else
    match fetchedSharedWith with
    | .error msg =>
      { updatedArray := none, updateAttempted := false
        toast := some (.shareError msg), shareEmailAfter := shareEmail
        selectedFileIdAfter := selectedFileId, refreshed := false }
    | .ok current =>
      match updateError with
      | some msg =>
        { updatedArray := none, updateAttempted := true
          toast := some (.shareError msg), shareEmailAfter := shareEmail
          selectedFileIdAfter := selectedFileId, refreshed := false }
      | none =>
        { updatedArray := some (updatedSharedWith current shareEmail)
          updateAttempted := true, toast := some (.shareSuccess shareEmail)
          shareEmailAfter := "", selectedFileIdAfter := none
          refreshed := true }

/-- A user used by the concrete counterexamples and witnesses. -/
def aliceUser : User := { id := "alice-id", email := some "alice@example.com" }

/-- A row owned by a different user and shared with nobody. -/
def bobRow : FileRecord :=
  { id := "f1", filename := "notes.txt", public_url := "http://x/f1"
    type := "text/plain", extension := "txt", shared_with := []
    fullname := "bob@example.com", created_at := "2024-01-02"
    user_id := "bob-id" }

/-- A row owned by `aliceUser`. -/
def aliceRow : FileRecord :=
  { id := "f2", filename := "plan.pdf", public_url := "http://x/f2"
    type := "application/pdf", extension := "pdf", shared_with := []
    fullname := "alice@example.com", created_at := "2024-01-03"
    user_id := "alice-id" }

/-! ### Helper lemmas about the sort model -/

theorem mem_insertDesc (key : FileRecord → String) (x a : FileRecord) (l : List FileRecord) :
    a ∈ insertDesc key x l ↔ a = x ∨ a ∈ l := by
  induction l with
  | nil => simp [insertDesc]
  | cons y ys ih =>
    simp only [insertDesc]
    split
    · simp only [List.mem_cons]
    · simp only [List.mem_cons, ih]
      tauto

theorem mem_sortDesc (key : FileRecord → String) (a : FileRecord) (l : List FileRecord) :
    a ∈ sortDesc key l ↔ a ∈ l := by
  induction l with
  | nil => simp [sortDesc]
  | cons x xs ih => simp [sortDesc, mem_insertDesc, ih, List.mem_cons]

theorem leChars_total (a : List Char) : ∀ b, leChars a b = true ∨ leChars b a = true := by
  induction a with
  | nil => intro b; left; rfl
  | cons x as ih =>
    intro b
    cases b with
    | nil => right; rfl
    | cons y bs =>
      by_cases hxy : x = y
      · subst hxy
        simp only [leChars, if_pos rfl]
        exact ih bs
      · rcases lt_trichotomy x y with h | h | h
        · left; simp [leChars, hxy, h]
        · exact absurd h hxy
        · right; simp [leChars, Ne.symm hxy, h]

theorem leChars_trans :
    ∀ a b c : List Char, leChars a b = true → leChars b c = true → leChars a c = true
  | [], _, _, _, _ => rfl
  | _ :: _, [], _, hab, _ => by simp [leChars] at hab
  | _ :: _, _ :: _, [], _, hbc => by simp [leChars] at hbc
  | x :: as, y :: bs, z :: cs, hab, hbc => by
    simp only [leChars] at hab hbc ⊢
    by_cases hxy : x = y
    · subst hxy
      rw [if_pos rfl] at hab
      by_cases hyz : x = z
      · subst hyz
        rw [if_pos rfl] at hbc
        rw [if_pos rfl]
        exact leChars_trans as bs cs hab hbc
      · rw [if_neg hyz] at hbc
        rw [if_neg hyz]
        exact hbc
    · rw [if_neg hxy] at hab
      have hxy' : x < y := of_decide_eq_true hab
      by_cases hyz : y = z
      · subst hyz
        rw [if_neg hxy]
        exact hab
      · rw [if_neg hyz] at hbc
        have hyz' : y < z := of_decide_eq_true hbc
        have hxz : x < z := lt_trans hxy' hyz'
        rw [if_neg (ne_of_lt hxz)]
        exact decide_eq_true hxz

theorem strLe_trans {a b c : String} (h1 : strLe a b = true) (h2 : strLe b c = true) :
    strLe a c = true :=
  leChars_trans _ _ _ h1 h2

theorem strLe_total (a b : String) : strLe a b = true ∨ strLe b a = true :=
  leChars_total _ _

theorem pairwise_insertDesc (key : FileRecord → String) (x : FileRecord) (l : List FileRecord)
    (h : l.Pairwise (fun a b => strLe (key b) (key a) = true)) :
    (insertDesc key x l).Pairwise (fun a b => strLe (key b) (key a) = true) := by
  induction l with
  | nil => simp [insertDesc]
  | cons y ys ih =>
    rcases List.pairwise_cons.mp h with ⟨hy, hys⟩
    simp only [insertDesc]
    split
    · rename_i hle
      refine List.pairwise_cons.mpr ⟨?_, h⟩
      intro b hb
      rcases List.mem_cons.mp hb with rfl | hb
      · exact hle
      · exact strLe_trans (hy b hb) hle
    · rename_i hle
      refine List.pairwise_cons.mpr ⟨?_, ih hys⟩
      intro b hb
      rcases (mem_insertDesc key x b ys).mp hb with rfl | hb
      · rcases strLe_total (key b) (key y) with h1 | h1
        · exact h1
        · exact absurd h1 hle
      · exact hy b hb

theorem pairwise_sortDesc (key : FileRecord → String) (l : List FileRecord) :
    (sortDesc key l).Pairwise (fun a b => strLe (key b) (key a) = true) := by
  induction l with
  | nil => simp [sortDesc]
  | cons x xs ih => exact pairwise_insertDesc key x _ ih

/-! ### Helper lemmas about the query pipeline -/

theorem mem_applyTypeFilter {t : Option String} {rows : List FileRecord} {a : FileRecord}
    (h : a ∈ applyTypeFilter t rows) : a ∈ rows := by
  unfold applyTypeFilter at h
  split at h
  · exact h
  · split at h
    · exact (List.mem_filter.mp h).1
    · exact h

theorem mem_applySearchFilter {q : Option String} {rows : List FileRecord} {a : FileRecord}
    (h : a ∈ applySearchFilter q rows) : a ∈ rows := by
  unfold applySearchFilter at h
  split at h
  · exact h
  · split at h
    · exact (List.mem_filter.mp h).1
    · exact h

theorem mem_applyLimit {lim : Option Int} {rows : List FileRecord} {a : FileRecord}
    (h : a ∈ applyLimit lim rows) : a ∈ rows := by
  unfold applyLimit at h
  split at h
  · exact h
  · split at h
    · exact List.take_subset _ _ h
    · exact h

theorem pairwise_applyLimit {r : FileRecord → FileRecord → Prop} {lim : Option Int}
    {rows : List FileRecord} (h : rows.Pairwise r) : (applyLimit lim rows).Pairwise r := by
  unfold applyLimit
  split
  · exact h
  · split
    · exact List.Pairwise.sublist (List.take_sublist _ _) h
    · exact h

/-! ### Helper lemmas about the extension derivation -/

theorem splitDot_cons (c : Char) (cs : List Char) :
    splitDot (c :: cs) =
      match splitDot cs with
      | [] => [[]]
      | s :: rest => if c = '.' then [] :: s :: rest else (c :: s) :: rest := rfl

theorem splitDot_ne_nil (l : List Char) : splitDot l ≠ [] := by
  cases l with
  | nil => simp [splitDot]
  | cons c cs =>
    unfold splitDot
    split
    · simp
    · split <;> simp

theorem splitDot_of_not_mem {l : List Char} (h : '.' ∉ l) : splitDot l = [l] := by
  induction l with
  | nil => rfl
  | cons c cs ih =>
    have hc : c ≠ '.' := fun he => h (he ▸ List.mem_cons_self c cs)
    have hcs : '.' ∉ cs := fun hm => h (List.mem_cons_of_mem c hm)
    unfold splitDot
    rw [ih hcs]
    simp [hc]

theorem splitDot_dot_mem {l : List Char} (h : '.' ∈ l) :
    ∃ s t, splitDot l = s :: t ∧ t ≠ [] := by
  induction l with
  | nil => simp at h
  | cons c cs ih =>
    by_cases hc : c = '.'
    · subst hc
      obtain ⟨s, rest, hs⟩ := List.exists_cons_of_ne_nil (splitDot_ne_nil cs)
      refine ⟨[], s :: rest, ?_, by simp⟩
      unfold splitDot
      rw [hs]
      simp
    · have hcs : '.' ∈ cs := by
        rcases List.mem_cons.mp h with h1 | h1
        · exact absurd h1.symm hc
        · exact h1
      obtain ⟨s, t, hst, ht⟩ := ih hcs
      refine ⟨c :: s, t, ?_, ht⟩
      unfold splitDot
      rw [hst]
      simp [hc]

theorem getLastD_congr {α : Type} :
    ∀ {t : List α}, t ≠ [] → ∀ d1 d2 : α, t.getLastD d1 = t.getLastD d2
  | [], ht, _, _ => absurd rfl ht
  | [_], _, _, _ => rfl
  | _ :: _ :: _, _, _, _ => by simp only [List.getLastD_cons]

theorem getLastD_splitDot_cons {l : List Char} (c : Char) (h : '.' ∈ l) :
    (splitDot (c :: l)).getLastD [] = (splitDot l).getLastD [] := by
  obtain ⟨s, t, hst, ht⟩ := splitDot_dot_mem h
  rw [splitDot_cons, hst]
  show (if c = '.' then [] :: s :: t else (c :: s) :: t).getLastD [] = (s :: t).getLastD []
  by_cases hc : c = '.'
  · rw [if_pos hc, List.getLastD_cons]
  · rw [if_neg hc, List.getLastD_cons, List.getLastD_cons]
    exact getLastD_congr ht _ _

theorem getLastD_splitDot_after_dot {b : List Char} (hb : '.' ∉ b) :
    ∀ a : List Char, (splitDot (a ++ '.' :: b)).getLastD [] = b := by
  intro a
  induction a with
  | nil =>
    show (splitDot ('.' :: b)).getLastD [] = b
    unfold splitDot
    rw [splitDot_of_not_mem hb]
    simp [List.getLastD_cons]
  | cons x xs ih =>
    have hd : '.' ∈ xs ++ '.' :: b := List.mem_append_right _ (List.mem_cons_self _ _)
    rw [List.cons_append, getLastD_splitDot_cons x hd, ih]

theorem dot_decomp {l : List Char} (h : '.' ∈ l) :
    ∃ a b, l = a ++ '.' :: b ∧ '.' ∉ b := by
  induction l with
  | nil => simp at h
  | cons c cs ih =>
    by_cases hcs : '.' ∈ cs
    · obtain ⟨a, b, hab, hb⟩ := ih hcs
      exact ⟨c :: a, b, by rw [hab]; rfl, hb⟩
    · have hc : c = '.' := by
        rcases List.mem_cons.mp h with h1 | h1
        · exact h1.symm
        · exact absurd h1 hcs
      exact ⟨[], cs, by simp [hc], hcs⟩

theorem fileExt_of_no_dot {name : String} (h : '.' ∉ name.data) : fileExt name = name := by
  unfold fileExt
  rw [splitDot_of_not_mem h]
  rfl

theorem fileExt_after_last_dot {a b : List Char} (hb : '.' ∉ b) (name : String)
    (hname : name.data = a ++ '.' :: b) : fileExt name = String.mk b := by
  unfold fileExt
  rw [hname, getLastD_splitDot_after_dot hb]

theorem fileExt_empty_cases {name : String} (h : fileExt name = "") :
    name = "" ∨ name.data.getLast? = some '.' := by
  by_cases hd : '.' ∈ name.data
  · obtain ⟨a, b, hab, hb⟩ := dot_decomp hd
    have hx : fileExt name = String.mk b := fileExt_after_last_dot hb name hab
    have hb0 : b = [] := by
      rw [hx] at h
      exact congrArg String.data h
    right
    rw [hab, hb0]
    exact List.getLast?_concat _
  · left
    have hx := fileExt_of_no_dot hd
    rw [hx] at h
    exact h

theorem orEmpty_eq (s : String) : orEmpty s = s := by
  by_cases h : s = "" <;> simp [orEmpty, truthyStr, h]

/-! ### Claim theorems -/

/-- C1 counterexample: the legacy screen's file query returns a row that
the invoking user neither owns nor has been shared: with `aliceUser`
resolved, its `fetchFiles` still returns `bobRow`, which is owned by a
different user and shared with nobody, so the ownership/sharing
predicate does not hold of it — the claim fails for this query
variant. -/
theorem legacy_fetch_returns_unshared_row :
    bobRow ∈ (fetchFilesLegacy (some aliceUser) [bobRow] none []).files
    ∧ ownershipPred aliceUser.id "alice@example.com" bobRow = false := by decide

/-- C1 (amended): in the parameterised query variants every returned row
satisfies the ownership/sharing predicate, and — when no type filter,
search filter or limit is in effect — a row appears in the result if and
only if it is in the table and satisfies the predicate; the legacy
variant's query is unscoped and not covered by this guarantee. -/
theorem query_scoped_variants_ownership (userId email : String) (p : FetchFilesParams)
    (table : List FileRecord) :
    (∀ r ∈ runQuery userId email p table, ownershipPred userId email r = true)
    ∧ (p.fileType = none → p.searchQuery = none → p.limit = none →
        ∀ r, r ∈ runQuery userId email p table ↔
          (r ∈ table ∧ ownershipPred userId email r = true))
    ∧ (∀ uid em qe exec res,
        getFiles uid em table qe = (exec, GetFilesResult.success res) →
        ∀ r ∈ res, ownershipPred (uid.getD "") (em.getD "") r = true) := by
  refine ⟨?_, ?_, ?_⟩
  · intro r hr
    unfold runQuery at hr
    have h1 := mem_applyLimit hr
    rw [mem_sortDesc] at h1
    have h2 := mem_applySearchFilter h1
    have h3 := mem_applyTypeFilter h2
    exact (List.mem_filter.mp h3).2
  · intro hft hsq hlim r
    unfold runQuery
    rw [hft, hsq, hlim]
    simp only [applyLimit, applyTypeFilter, applySearchFilter]
    rw [mem_sortDesc, List.mem_filter]
  · intro uid em qe exec res hres r hr
    unfold getFiles at hres
    split at hres
    · simp at hres
    · split at hres
      · simp at hres
      · split at hres
        · simp at hres
        · rw [Prod.mk.injEq] at hres
          obtain ⟨-, hres2⟩ := hres
          injection hres2 with hres3
          rw [← hres3] at hr
          rw [mem_sortDesc] at hr
          exact (List.mem_filter.mp hr).2

/-- C1 witness for the amended theorem: with no filters and no limit,
`aliceRow` (owned by the querying user) appears in the query result over
a two-row table. -/
theorem query_scoped_variants_ownership_witness :
    aliceRow ∈ runQuery "alice-id" "alice@example.com"
      { fileType := none, searchQuery := none, sortBy := some "created_at", limit := none }
      [aliceRow, bobRow] := by
  have h := query_scoped_variants_ownership "alice-id" "alice@example.com"
    { fileType := none, searchQuery := none, sortBy := some "created_at", limit := none }
    [aliceRow, bobRow]
  exact (h.2.1 rfl rfl rfl aliceRow).mpr ⟨by decide, by decide⟩

/-- C2 counterexample: with no resolved user at all the legacy screen's
`fetchFiles` still executes its (unscoped) query and overwrites the file
list state, so the operation is not a no-op in that variant. -/
theorem legacy_fetch_executes_without_user :
    resolvedUser none = false
    ∧ (fetchFilesLegacy none [bobRow] none []).executed = true
    ∧ (fetchFilesLegacy none [bobRow] none []).files = [bobRow] := by decide

/-- C2 (amended): in the main screen an unresolved user id or email makes
`fetchFiles` a strict no-op (no query, state and notifications
untouched), and the server action throws before issuing any query when
either input is missing; the legacy screen's `fetchFiles` is not a no-op
(it queries regardless of the user state). -/
theorem fetch_noop_without_user (user : Option User) (p : FetchFilesParams)
    (table files0 : List FileRecord) (qe : Option String)
    (h : resolvedUser user = false) :
    fetchFiles user p table qe files0
      = { executed := false, files := files0, errorToast := false }
    ∧ (∀ uid em qe2, (truthyOptStr uid = false ∨ truthyOptStr em = false) →
        (getFiles uid em table qe2).1 = false
        ∧ ∃ m, (getFiles uid em table qe2).2 = GetFilesResult.thrown m) := by
  constructor
  · cases user with
    | none => rfl
    | some u =>
      have h' : (truthyStr u.id && truthyOptStr u.email) = false := h
      have hcond : (!truthyStr u.id || !truthyOptStr u.email) = true := by
        rw [← Bool.not_and, h']
        rfl
      unfold fetchFiles
      simp [hcond]
  · intro uid em qe2 hor
    unfold getFiles
    rcases hor with h1 | h1
    · rw [h1]
      simp
    · cases h2 : truthyOptStr uid with
      | false => simp
      | true =>
        rw [h1]
        simp

/-- C2 witness: applying the amended theorem at a concrete unresolved
user. -/
theorem fetch_noop_without_user_witness :
    fetchFiles none
        { fileType := none, searchQuery := none, sortBy := some "created_at", limit := none }
        [bobRow] none [aliceRow]
      = { executed := false, files := [aliceRow], errorToast := false }
    ∧ (getFiles none (some "alice@example.com") [bobRow] none).1 = false := by
  have h := fetch_noop_without_user none
    { fileType := none, searchQuery := none, sortBy := some "created_at", limit := none }
    [bobRow] [aliceRow] none (by decide)
  exact ⟨h.1, (h.2 none (some "alice@example.com") none (Or.inl (by decide))).1⟩

/-- C3: a sort key outside the allow-list produces exactly the same query
result as the default key, every allow-listed key is used as given, and
the result under the default key is ordered descending by creation
time. -/
theorem sort_fallback_default (userId email sortBy : String)
    (fileType searchQuery : Option String) (limit : Option Int)
    (table : List FileRecord) (h : sortBy ∉ allowedSortColumns) :
    runQuery userId email
        { fileType := fileType, searchQuery := searchQuery
          sortBy := some sortBy, limit := limit } table
      = runQuery userId email
        { fileType := fileType, searchQuery := searchQuery
          sortBy := some "created_at", limit := limit } table
    ∧ (∀ s ∈ allowedSortColumns, finalSortBy s = s)
    ∧ List.Pairwise (fun a b => strLe b.created_at a.created_at = true)
        (runQuery userId email
          { fileType := fileType, searchQuery := searchQuery
            sortBy := some sortBy, limit := limit } table) := by
  have hfs : finalSortBy sortBy = "created_at" := by
    unfold finalSortBy
    rw [if_neg]
    intro hc
    exact h (by simpa using hc)
  have hca : finalSortBy "created_at" = "created_at" := rfl
  refine ⟨?_, ?_, ?_⟩
  · unfold runQuery
    simp only [Option.getD_some]
    rw [hfs, hca]
  · intro s hs
    simp only [allowedSortColumns, List.mem_cons, List.not_mem_nil, or_false] at hs
    rcases hs with rfl | rfl | rfl <;> rfl
  · unfold runQuery
    simp only [Option.getD_some]
    rw [hfs]
    apply pairwise_applyLimit
    have hbase := pairwise_sortDesc (orderValue "created_at")
      (applySearchFilter searchQuery
        (applyTypeFilter fileType
          (table.filter (fun f => ownershipPred userId email f))))
    apply hbase.imp
    intro a b hab
    simpa [orderValue] using hab

/-- C3 witness: a hostile sort key yields the same result as the default
on a concrete table, and `filename` is accepted as given. -/
theorem sort_fallback_default_witness :
    runQuery "alice-id" "alice@example.com"
        { fileType := none, searchQuery := none
          sortBy := some "bogus; drop table", limit := none } [aliceRow]
      = runQuery "alice-id" "alice@example.com"
        { fileType := none, searchQuery := none
          sortBy := some "created_at", limit := none } [aliceRow]
    ∧ finalSortBy "filename" = "filename" := by
  have h := sort_fallback_default "alice-id" "alice@example.com" "bogus; drop table"
    none none none [aliceRow] (by decide)
  exact ⟨h.1, h.2.1 "filename" (by decide)⟩

/-- C4: a requested limit n is applied exactly when 1 ≤ n ≤ 100 (the
result is the unlimited result truncated to n rows, hence has at most n
rows); for n = 0, n = 101 or negative n the result equals the unlimited
one, as it does when no limit is requested. -/
theorem limit_range_behavior (userId email : String)
    (fileType searchQuery sortBy : Option String)
    (n : Int) (table : List FileRecord) :
    (0 < n → n ≤ 100 →
      runQuery userId email
          { fileType := fileType, searchQuery := searchQuery
            sortBy := sortBy, limit := some n } table
        = (runQuery userId email
            { fileType := fileType, searchQuery := searchQuery
              sortBy := sortBy, limit := none } table).take n.toNat
      ∧ (runQuery userId email
          { fileType := fileType, searchQuery := searchQuery
            sortBy := sortBy, limit := some n } table).length ≤ n.toNat)
    ∧ ((n = 0 ∨ n = 101 ∨ n < 0) →
        runQuery userId email
            { fileType := fileType, searchQuery := searchQuery
              sortBy := sortBy, limit := some n } table
          = runQuery userId email
            { fileType := fileType, searchQuery := searchQuery
              sortBy := sortBy, limit := none } table) := by
  constructor
  · intro h1 h2
    constructor
    · unfold runQuery
      simp only [applyLimit]
      rw [if_pos ⟨h1, h2⟩]
    · unfold runQuery
      simp only [applyLimit]
      rw [if_pos ⟨h1, h2⟩]
      exact List.length_take_le _ _
  · intro h3
    unfold runQuery
    simp only [applyLimit]
    rw [if_neg]
    rintro ⟨ha, hb⟩
    rcases h3 with rfl | rfl | hneg <;> omega

/-- C4 witness: limit 50 truncates and limit 0 is unlimited, on a
concrete one-row table. -/
theorem limit_range_behavior_witness :
    runQuery "alice-id" "alice@example.com"
        { fileType := none, searchQuery := none
          sortBy := some "created_at", limit := some 50 } [aliceRow]
      = (runQuery "alice-id" "alice@example.com"
          { fileType := none, searchQuery := none
            sortBy := some "created_at", limit := none } [aliceRow]).take (Int.toNat 50)
    ∧ runQuery "alice-id" "alice@example.com"
        { fileType := none, searchQuery := none
          sortBy := some "created_at", limit := some 0 } [aliceRow]
      = runQuery "alice-id" "alice@example.com"
        { fileType := none, searchQuery := none
          sortBy := some "created_at", limit := none } [aliceRow] := by
  have h50 := limit_range_behavior "alice-id" "alice@example.com" none none
    (some "created_at") 50 [aliceRow]
  have h0 := limit_range_behavior "alice-id" "alice@example.com" none none
    (some "created_at") 0 [aliceRow]
  exact ⟨(h50.1 (by omega) (by omega)).1, h0.2 (Or.inl rfl)⟩

/-- C5 counterexample: uploading a file whose name has no dot makes the
entire original filename part of the storage key (the derived extension
is the whole name), contradicting the claim that the original filename
is never part of the key. -/
theorem upload_key_contains_dotless_filename :
    (handleUpload (some { name := "notes", type := "text/plain" }) (some aliceUser)
        "3f2b-uuid" (fun k => "http://x/" ++ k) none none false).storageKeyUsed
      = some "3f2b-uuid.notes"
    ∧ substrL "notes".data ("3f2b-uuid.notes").data = true
    ∧ fileExt "notes" = "notes" := by decide

/-- C5 (amended): every successful upload stores under the key built from
the random token, a dot and the derived extension, and inserts a row
preserving the original filename with that extension; when the filename
contains a dot, the extension is exactly the part after the last dot (so
the base name is then not part of the key); uploading a file named
a.txt yields extension txt. -/
theorem upload_key_and_extension (u : User) (f : BrowserFile) (uuid : String)
    (publicUrlFor : String → String) (b0 : Bool) (a b : List Char)
    (hname : f.name.data = a ++ '.' :: b) (hb : '.' ∉ b) :
    (handleUpload (some f) (some u) uuid publicUrlFor none none b0).storageKeyUsed
      = some (uuid ++ "." ++ fileExt f.name)
    ∧ (handleUpload (some f) (some u) uuid publicUrlFor none none b0).insertedRow
      = some { filename := f.name
               public_url := publicUrlFor (fileName uuid f.name)
               user_id := u.id
               type := f.type
               extension := String.mk b
               fullname := jsOrElse u.email "Unknown" }
    ∧ fileExt f.name = String.mk b
    ∧ fileExt "a.txt" = "txt" := by
  have hx : fileExt f.name = String.mk b := fileExt_after_last_dot hb f.name hname
  refine ⟨rfl, ?_, hx, by decide⟩
  simp only [handleUpload]
  rw [orEmpty_eq, hx]

/-- C5 witness for the amended theorem: the concrete a.txt upload. -/
theorem upload_key_and_extension_witness :
    (handleUpload (some { name := "a.txt", type := "text/plain" }) (some aliceUser)
        "3f2b-uuid" (fun k => "http://x/" ++ k) none none false).insertedRow
      = some { filename := "a.txt", public_url := "http://x/3f2b-uuid.txt"
               user_id := "alice-id", type := "text/plain"
               extension := "txt", fullname := "alice@example.com" } := by
  have h := upload_key_and_extension aliceUser { name := "a.txt", type := "text/plain" }
    "3f2b-uuid" (fun k => "http://x/" ++ k) false ('a' :: [])
    ('t' :: 'x' :: 't' :: []) (by decide) (by decide)
  rw [h.2.1]
  decide

/-- C6: if the storage write fails the upload aborts before the metadata
insert with the error surfaced; if the insert fails after a successful
write the error is surfaced and no compensating delete happens; the busy
flag ends cleared in every outcome, and the list is refreshed exactly on
success. -/
theorem upload_error_handling (f : BrowserFile) (u : User) (uuid : String)
    (publicUrlFor : String → String) (b0 : Bool) (se de : Option String) :
    (∀ m, se = some m →
      (handleUpload (some f) (some u) uuid publicUrlFor se de b0).insertAttempted = false
      ∧ (handleUpload (some f) (some u) uuid publicUrlFor se de b0).insertedRow = none
      ∧ (handleUpload (some f) (some u) uuid publicUrlFor se de b0).toast
          = some (ToastMsg.uploadError m)
      ∧ (handleUpload (some f) (some u) uuid publicUrlFor se de b0).refreshed = false)
    ∧ (∀ m, se = none → de = some m →
      (handleUpload (some f) (some u) uuid publicUrlFor se de b0).uploadAttempted = true
      ∧ (handleUpload (some f) (some u) uuid publicUrlFor se de b0).insertedRow = none
      ∧ (handleUpload (some f) (some u) uuid publicUrlFor se de b0).compensatingDelete = false
      ∧ (handleUpload (some f) (some u) uuid publicUrlFor se de b0).toast
          = some (ToastMsg.uploadError m)
      ∧ (handleUpload (some f) (some u) uuid publicUrlFor se de b0).refreshed = false)
    ∧ (handleUpload (some f) (some u) uuid publicUrlFor se de b0).isUploading = false
    ∧ ((handleUpload (some f) (some u) uuid publicUrlFor se de b0).refreshed = true
        ↔ (se = none ∧ de = none)) := by
  cases se <;> cases de <;> simp [handleUpload]

/-- C6 witness: a failing storage write on a concrete upload leaves no
inserted row and a cleared busy flag. -/
theorem upload_error_handling_witness :
    (handleUpload (some { name := "a.txt", type := "t" }) (some aliceUser) "u1"
        (fun k => k) (some "storage down") none true).insertAttempted = false
    ∧ (handleUpload (some { name := "a.txt", type := "t" }) (some aliceUser) "u1"
        (fun k => k) (some "storage down") none true).isUploading = false := by
  have h := upload_error_handling { name := "a.txt", type := "t" } aliceUser "u1"
    (fun k => k) true (some "storage down") none
  exact ⟨(h.1 "storage down" rfl).1, h.2.2.1⟩

/-- C7: a successful share writes back exactly the previous array (null
treated as empty) with the email appended at the end; existing entries
are preserved, occurrence counts of other entries are untouched, the
shared email's count grows by one, and sharing the same email twice
yields two occurrences. -/
theorem share_append_no_dedup (fid email : String) (cur : Option (List String))
    (hfid : truthyStr fid = true) (hemail : truthyStr email = true) :
    (handleShare (some fid) email (Except.ok cur) none).updatedArray
      = some (cur.getD [] ++ [email])
    ∧ (∀ x ∈ cur.getD [], x ∈ updatedSharedWith cur email)
    ∧ (updatedSharedWith cur email).count email = (cur.getD []).count email + 1
    ∧ (∀ x, x ≠ email → (updatedSharedWith cur email).count x = (cur.getD []).count x)
    ∧ updatedSharedWith (some (updatedSharedWith cur email)) email
      = cur.getD [] ++ [email, email] := by
  refine ⟨?_, ?_, ?_, ?_, ?_⟩
  · have hc : (!truthyOptStr (some fid) || !truthyStr email) = false := by
      simp [truthyOptStr, hfid, hemail]
    unfold handleShare
    simp [hc]
    rfl
  · intro x hx
    exact List.mem_append_left _ hx
  · simp [updatedSharedWith]
  · intro x hx
    simp [updatedSharedWith, List.count_singleton, hx]
  · simp [updatedSharedWith]

/-- C7 witness: sharing with a new email appends after the existing entry,
and sharing the same email twice produces the duplicate. -/
theorem share_append_no_dedup_witness :
    (handleShare (some "f1") "bob@example.com"
        (Except.ok (some ["carol@example.com"])) none).updatedArray
      = some ["carol@example.com", "bob@example.com"]
    ∧ updatedSharedWith
        (some (updatedSharedWith (some ["carol@example.com"]) "bob@example.com"))
        "bob@example.com"
      = ["carol@example.com", "bob@example.com", "bob@example.com"] := by
  have h := share_append_no_dedup "f1" "bob@example.com"
    (some ["carol@example.com"]) (by decide) (by decide)
  exact ⟨h.1, h.2.2.2.2⟩

/-- C8: a query error in either screen's fetch produces the error toast
and leaves the stored file list exactly as it was. -/
theorem fetch_error_preserves_files (u : User) (p : FetchFilesParams)
    (table files0 : List FileRecord) (msg : String)
    (hid : truthyStr u.id = true) (hem : truthyOptStr u.email = true) :
    fetchFiles (some u) p table (some msg) files0
      = { executed := true, files := files0, errorToast := true }
    ∧ fetchFilesLegacy (some u) table (some msg) files0
      = { executed := true, files := files0, errorToast := true } := by
  constructor
  · have hc : (!truthyStr u.id || !truthyOptStr u.email) = false := by
      rw [hid, hem]
      rfl
    unfold fetchFiles
    simp [hc]
  · rfl

/-- C8 witness: a concrete failing fetch retains the previous list. -/
theorem fetch_error_preserves_files_witness :
    fetchFiles (some aliceUser)
        { fileType := none, searchQuery := none, sortBy := some "created_at", limit := none }
        [bobRow] (some "network down") [aliceRow]
      = { executed := true, files := [aliceRow], errorToast := true } := by
  exact (fetch_error_preserves_files aliceUser
    { fileType := none, searchQuery := none, sortBy := some "created_at", limit := none }
    [bobRow] [aliceRow] "network down" (by decide) (by decide)).1

/-- C9: with a truthy pending file id and a nonempty email, the pending
target and the input field are cleared exactly when both the read and
the write succeed; on a read error or a write error both are retained
unchanged and the share error toast is surfaced. -/
theorem share_clear_iff_success (fid email : String)
    (fr : Except String (Option (List String))) (ue : Option String)
    (hfid : truthyStr fid = true) (hemail : truthyStr email = true) :
    (((handleShare (some fid) email fr ue).selectedFileIdAfter = none
        ∧ (handleShare (some fid) email fr ue).shareEmailAfter = "")
      ↔ ((∃ cur, fr = Except.ok cur) ∧ ue = none))
    ∧ (∀ m, fr = Except.error m →
        (handleShare (some fid) email fr ue).selectedFileIdAfter = some fid
        ∧ (handleShare (some fid) email fr ue).shareEmailAfter = email
        ∧ (handleShare (some fid) email fr ue).toast = some (ToastMsg.shareError m))
    ∧ (∀ m cur, fr = Except.ok cur → ue = some m →
        (handleShare (some fid) email fr ue).selectedFileIdAfter = some fid
        ∧ (handleShare (some fid) email fr ue).shareEmailAfter = email
        ∧ (handleShare (some fid) email fr ue).toast = some (ToastMsg.shareError m)) := by
  have hc : (!truthyOptStr (some fid) || !truthyStr email) = false := by
    simp [truthyOptStr, hfid, hemail]
  cases fr <;> cases ue <;> simp [handleShare, hc]

/-- C9 witness: a concrete successful share clears both, and a concrete
read error surfaces the toast. -/
theorem share_clear_iff_success_witness :
    ((handleShare (some "f1") "bob@example.com" (Except.ok none) none).selectedFileIdAfter = none
      ∧ (handleShare (some "f1") "bob@example.com" (Except.ok none) none).shareEmailAfter = "")
    ∧ (handleShare (some "f1") "bob@example.com" (Except.error "boom") none).toast
      = some (ToastMsg.shareError "boom") := by
  have h1 := share_clear_iff_success "f1" "bob@example.com" (Except.ok none) none
    (by decide) (by decide)
  have h2 := share_clear_iff_success "f1" "bob@example.com" (Except.error "boom") none
    (by decide) (by decide)
  exact ⟨h1.1.mpr ⟨⟨none, rfl⟩, rfl⟩, (h2.2.1 "boom" rfl).2.2⟩

/-- C10 counterexample: for the empty filename (which contains no dot and
does not end with a dot) the derived extension is empty, contradicting
both the claim that the extension of a dotless name is never empty and
the claim that the extension is empty only when the name ends with a
dot. -/
theorem empty_name_extension_empty :
    fileExt "" = ""
    ∧ ('.' ∈ "".data → False)
    ∧ ¬ "".data.getLast? = some '.'
    ∧ (handleUpload (some { name := "", type := "text/plain" }) (some aliceUser)
        "3f2b-uuid" (fun k => "http://x/" ++ k) none none false).insertedRow
      = some { filename := "", public_url := "http://x/3f2b-uuid."
               user_id := "alice-id", type := "text/plain"
               extension := "", fullname := "alice@example.com" } := by decide

/-- C10 (amended): for every nonempty filename containing no dot the
derived extension is the entire original filename (hence nonempty) and
the storage key is the token, a dot and the full name; the extension is
empty only when the filename is empty or ends with a dot. -/
theorem dotless_extension_whole_name (name uuid : String) :
    (name ≠ "" → '.' ∉ name.data →
      fileExt name = name ∧ fileExt name ≠ ""
      ∧ fileName uuid name = uuid ++ "." ++ name)
    ∧ (fileExt name = "" → name = "" ∨ name.data.getLast? = some '.') := by
  constructor
  · intro h1 h2
    have hx := fileExt_of_no_dot h2
    refine ⟨hx, ?_, ?_⟩
    · rw [hx]
      exact h1
    · unfold fileName
      rw [hx]
  · exact fileExt_empty_cases

/-- C10 witness for the amended theorem: the concrete dotless name
notes. -/
theorem dotless_extension_whole_name_witness :
    fileExt "notes" = "notes"
    ∧ fileName "3f2b" "notes" = "3f2b" ++ "." ++ "notes" := by
  have h := dotless_extension_whole_name "notes" "3f2b"
  obtain ⟨hx, -, hk⟩ := h.1 (by decide) (by decide)
  exact ⟨hx, hk⟩
